import Mathlib

/-!
# Verification of the koishijs/ponyfills path engine

This file embeds the path-resolution module of `src/packages/fs/src/index.ts`
(the functions `normalizeArray`, `parse`, `resolve`, `isAbsolute`,
`normalize`, `join`, `trim`, `relative`, `dirname`, `basename`, `extname`)
and proves the spec's claims about it.

A JS string is modelled as a `List Char` (the code treats strings as plain
sequences of code units and `/` and `.` are the only characters it inspects);
`String` wrappers named after the exported functions sit on top.  JS arrays
of segments become `List (List Char)`.  The variadic functions `resolve` and
`join` take a `List String`.  Because `resolve`/`join` type-check their
variadic arguments at run time, a second pair of embeddings (`resolveE`,
`joinE`) takes a list of `JSValue` (a string, or any non-string value) and
returns `Except Unit String`, where `.error ()` models the thrown
`TypeError`.
-/

namespace Ponyfills

/-- Model of a JS value passed as a variadic path argument: either a string
or some non-string value (its identity is irrelevant: the code only tests
`typeof path !== 'string'`). -/
inductive JSValue where
  | str : String → JSValue
  | nonString : JSValue

/-- Embeds `path.charAt(0) === '/'` (the body of `isAbsolute`): the first
character, when there is one, is `'/'`; on the empty string `charAt(0)` is
`''`, which differs from `'/'`. -/
def isAbsoluteL (l : List Char) : Bool :=
  l.head? == some '/'

/-- Embeds `s.split('/')`: first group and remaining groups. -/
def splitCharAux : List Char → List Char × List (List Char)
  | [] => ([], [])
  | c :: rest =>
    let r := splitCharAux rest
    if c = '/' then ([], r.1 :: r.2) else (c :: r.1, r.2)

/-- Embeds `s.split('/')` (JS always returns at least one group). -/
def splitChar (l : List Char) : List (List Char) :=
  (splitCharAux l).1 :: (splitCharAux l).2

/-- Embeds `.filter(p => !!p)`: keep the non-empty strings. -/
def keepNonempty : List (List Char) → List (List Char)
  | [] => []
  | g :: gs => if g = [] then keepNonempty gs else g :: keepNonempty gs

/-- Embeds `path.split('/').filter(p => !!p)`. -/
def segsOf (l : List Char) : List (List Char) :=
  keepNonempty (splitChar l)

/-- Embeds the backward scan of `normalizeArray` (lines 21-34): the loop
walks the array from the last entry to the first keeping a counter `up`;
`.` is dropped, `..` is dropped and increments `up`, any other segment is
dropped while `up > 0` (decrementing it) and kept otherwise.  Recursing on
the tail first reproduces the right-to-left order.  Returns the kept
segments (in order) and the final `up`. -/
def collapseSegs : List (List Char) → List (List Char) × Nat
  | [] => ([], 0)
  | p :: rest =>
    let r := collapseSegs rest
    if p = ['.'] then r
    else if p = ['.', '.'] then (r.1, r.2 + 1)
    else if r.2 ≠ 0 then (r.1, r.2 - 1)
    else (p :: r.1, r.2)

/-- Embeds `normalizeArray(parts, allowAboveRoot)`: the backward scan, then
`up` leading `..` segments are restored when `allowAboveRoot`. -/
def normalizeArrayL (parts : List (List Char)) (allowAboveRoot : Bool) :
    List (List Char) :=
  let r := collapseSegs parts
  if allowAboveRoot then List.replicate r.2 ['.', '.'] ++ r.1 else r.1

/-- Embeds `arr.join('/')`. -/
def joinSegs : List (List Char) → List Char
  | [] => []
  | [x] => x
  | x :: xs => x ++ '/' :: joinSegs xs

/-- Embeds the argument scan of `resolve` (lines 50-60): arguments are
visited from the last one to the synthetic root `'/'` at index `-1`; an
empty string is skipped, any other is prepended as `path + '/' + acc`, and
the loop stops once the prepended path was absolute.  The input list is the
argument list already reversed (with `['/']` appended), i.e. in visiting
order. -/
def scanArgs : List (List Char) → List Char → List Char × Bool
  | [], acc => (acc, false)
  | p :: rest, acc =>
    if p = [] then scanArgs rest acc
    else if isAbsoluteL p then (p ++ '/' :: acc, true)
    else scanArgs rest (p ++ '/' :: acc)

/-- Embeds `resolve(...args)` for string arguments (lines 49-63): scan the
arguments backwards, split and drop empty segments, collapse with
`allowAboveRoot = !resolvedAbsolute`, rejoin, prefix `/` when absolute, and
return `'.'` for an empty falsy result. -/
def resolveL (args : List (List Char)) : List Char :=
  let r := scanArgs (args.reverse ++ [['/']]) []
  let parts := normalizeArrayL (segsOf r.1) (!r.2)
  let out := (if r.2 then ['/'] else []) ++ joinSegs parts
  if out = [] then ['.'] else out

/-- Embeds `normalize(path)` (lines 69-76). -/
def normalizeL (p : List Char) : List Char :=
  let abs := isAbsoluteL p
  let trailing := p.getLast? = some '/'
  let body0 := joinSegs (normalizeArrayL (segsOf p) (!abs))
  let body1 := if body0 = [] ∧ abs = false then ['.'] else body0
  let body2 := if body1 ≠ [] ∧ trailing then body1 ++ ['/'] else body1
  (if abs then ['/'] else []) ++ body2

/-- Embeds `join(...args)` for string arguments (lines 78-85): filter keeps
the truthy (non-empty) strings, then join with `'/'` and normalize. -/
def joinL (args : List (List Char)) : List Char :=
  normalizeL (joinSegs (keepNonempty args))

/-- Embeds the `start` loop of `trim` (lines 87-91): index of the first
non-empty entry, or the length when all are empty. -/
def firstNonempty : List (List Char) → Nat
  | [] => 0
  | g :: gs => if g = [] then firstNonempty gs + 1 else 0

/-- Embeds the `end` loop of `trim` (lines 92-95): index of the last
non-empty entry, or `none` standing for JS's `-1`. -/
def lastNonempty : List (List Char) → Option Nat
  | [] => none
  | g :: gs =>
    match lastNonempty gs with
    | some k => some (k + 1)
    | none => if g = [] then none else some 0

/-- Embeds `trim(arr)` (lines 87-98), including the literal
`arr.slice(start, end - start + 1)` whose second operand is an **index**
(exclusive), not a length: the result is `arr[start..(end - 2*start)]`
(with a JS negative bound giving `[]`, matching truncated `Nat`
subtraction). -/
def trimL (arr : List (List Char)) : List (List Char) :=
  match lastNonempty arr with
  | none => []
  | some e =>
    let s := firstNonempty arr
    (arr.drop s).take (e + 1 - 2 * s)

/-- Embeds the `shared` loop of `relative` (lines 104-108): length of the
longest common prefix, stopping at the first mismatch or at the shorter
list's end. -/
def commonPrefixLen : List (List Char) → List (List Char) → Nat
  | a :: as, b :: bs => if a = b then commonPrefixLen as bs + 1 else 0
  | _, _ => 0

/-- Embeds `relative(from, to)` (lines 100-114): resolve both sides, strip
the leading `/`, split on `/` (no filtering) and `trim`; then one `..` per
remaining `from` segment followed by the remaining `to` segments. -/
def relativeL (f t : List Char) : List Char :=
  let lhs := trimL (splitChar ((resolveL [f]).drop 1))
  let rhs := trimL (splitChar ((resolveL [t]).drop 1))
  let shared := commonPrefixLen lhs rhs
  joinSegs (List.replicate (lhs.length - shared) ['.', '.'] ++ rhs.drop shared)

/-- Embeds the fourth capture group of
`pathRegExp = /^(\/?|)([\s\S]*?)((?:\.{1,2}|[^\/]+?|)(\.[^.\/]*|))(?:[\/]*)$/`
on the final segment `b` (which is slash-free): backtracking prefers the
alternative `\.{1,2}` (greedily two dots, then one) for the name part, then
the lazy `[^\/]+?`, then the empty name; the extension `(\.[^.\/]*|)`
prefers a dot followed by dot-free characters.  Working the priorities out
(see `parse_matches_regex` below for the match's validity): the extension
is the suffix of `b` starting at its **last** dot provided that dot is not
the first character, except that `b = ".."` itself takes the two-dot name
with an empty extension.  The condition `v.length + 2 ≤ b.length` says a
dot exists at an index ≥ 1, where `v` is the dot-free tail. -/
def extOf (b : List Char) : List Char :=
  if b = ['.', '.'] then []
  else
    let v := b.reverse.takeWhile (fun c => c != '.')
    if v.length + 2 ≤ b.length then '.' :: v.reverse else []

/-- The first capture group `(\/?|)` of `pathRegExp`: a single leading `/`
when present (the greedy `\/?` branch is preferred), else empty. -/
def rootOf (s : List Char) : List Char :=
  if s.head? = some '/' then ['/'] else []

/-- The trailing `(?:[\/]*)$` of `pathRegExp`: the maximal run of trailing
slashes is consumed uncaptured; this returns what precedes it. -/
def stripSlashes (l : List Char) : List Char :=
  (l.reverse.dropWhile (fun c => c == '/')).reverse

/-- The second capture group (lazy `([\s\S]*?)`): everything up to and
including the last `/` that precedes the final segment (empty when the
final segment has no preceding `/`). -/
def dirOf (t : List Char) : List Char :=
  (t.reverse.dropWhile (fun c => c != '/')).reverse

/-- The third capture group: the final (slash-free) segment. -/
def baseOf (t : List Char) : List Char :=
  (t.reverse.takeWhile (fun c => c != '/')).reverse

/-- Embeds `parse(filename)` (lines 43-47): the four capture groups of
`pathRegExp.exec(filename).slice(1)` — root (`/` or empty), dir (up to and
including the last `/` before the final segment), the final segment, and
its extension; trailing slashes are consumed by the uncaptured `[\/]*`. -/
def parseL (s : List Char) : List Char × List Char × List Char × List Char :=
  let root := rootOf s
  let t := stripSlashes (s.drop root.length)
  (root, dirOf t, baseOf t, extOf (baseOf t))

/-- Embeds `dirname(path)` (lines 119-126): `.` when both root and dir are
empty, else root plus dir with its trailing separator removed. -/
def dirnameL (p : List Char) : List Char :=
  let r := parseL p
  if r.1 = [] ∧ r.2.1 = [] then ['.']
  else r.1 ++ r.2.1.dropLast

/-- Embeds `basename(path, ext)` (lines 128-134); JS's omitted `ext` and
`''` behave identically (both falsy), so the optional argument is modelled
by the empty list.  `f.slice(-ext.length) === ext` is the suffix test and
`f.slice(0, -ext.length)` drops that suffix. -/
def basenameL (p ext : List Char) : List Char :=
  let f := (parseL p).2.2.1
  if ext ≠ [] ∧ f.drop (f.length - ext.length) = ext then
    f.take (f.length - ext.length)
  else f

/-- Embeds `extname(path)` (lines 136-138). -/
def extnameL (p : List Char) : List Char :=
  (parseL p).2.2.2

/-- Embeds the scan of `resolve` including its run-time type check: a
non-string argument reached by the backward scan throws a `TypeError`
(modelled as `.error ()`); arguments to the left of the stopping point are
never examined. -/
def scanArgsE : List JSValue → List Char → Except Unit (List Char × Bool)
  | [], acc => .ok (acc, false)
  | .nonString :: _, _ => .error ()
  | .str s :: rest, acc =>
    if s.data = [] then scanArgsE rest acc
    else if isAbsoluteL s.data then .ok (s.data ++ '/' :: acc, true)
    else scanArgsE rest (s.data ++ '/' :: acc)

/-- Embeds `resolve(...args)` over arbitrary JS values. -/
def resolveE (args : List JSValue) : Except Unit String :=
  match scanArgsE (args.reverse ++ [.str "/"]) [] with
  | .error e => .error e
  | .ok r =>
    let parts := normalizeArrayL (segsOf r.1) (!r.2)
    let out := (if r.2 then ['/'] else []) ++ joinSegs parts
    .ok (String.mk (if out = [] then ['.'] else out))

/-- Embeds the filter callback of `join` (lines 79-84): every element is
visited left to right; a non-string throws, a string is kept when
truthy (non-empty). -/
def filterE : List JSValue → Except Unit (List (List Char))
  | [] => .ok []
  | .nonString :: _ => .error ()
  | .str s :: rest =>
    match filterE rest with
    | .error e => .error e
    | .ok r => .ok (if s.data = [] then r else s.data :: r)

/-- Embeds `join(...args)` over arbitrary JS values. -/
def joinE (args : List JSValue) : Except Unit String :=
  match filterE args with
  | .error e => .error e
  | .ok parts => .ok (String.mk (normalizeL (joinSegs parts)))

/-- Exported `resolve` on string arguments. -/
def resolve (args : List String) : String :=
  String.mk (resolveL (args.map String.data))

/-- Exported `isAbsolute`. -/
def isAbsolute (p : String) : Bool :=
  isAbsoluteL p.data

/-- Exported `normalize`. -/
def normalize (p : String) : String :=
  String.mk (normalizeL p.data)

/-- Exported `join` on string arguments. -/
def join (args : List String) : String :=
  String.mk (joinL (args.map String.data))

/-- Exported `relative`. -/
def relative (f t : String) : String :=
  String.mk (relativeL f.data t.data)

/-- Exported `dirname`. -/
def dirname (p : String) : String :=
  String.mk (dirnameL p.data)

/-- Exported `basename`; the omitted optional `ext` is the empty string. -/
def basename (p ext : String) : String :=
  String.mk (basenameL p.data ext.data)

/-- Exported `extname`. -/
def extname (p : String) : String :=
  String.mk (extnameL p.data)

/-- Exported constant `sep`. -/
def sep : String := "/"

/-- Exported constant `delimiter`. -/
def delimiter : String := ":"

/-! ## The shape of a `pathRegExp` match

`pathRegExp.exec` never returns `null` — each constraint below can be
satisfied — and `parse`'s non-null assertion is safe.  The predicate states
that a group assignment is a valid match of
`^(\/?|)([\s\S]*?)((?:\.{1,2}|[^\/]+?|)(\.[^.\/]*|))(?:[\/]*)$`. -/

/-- The name alternatives `\.{1,2}`, `[^\/]+?` and the empty name. -/
def bodyGroupOK (body : List Char) : Prop :=
  body = ['.'] ∨ body = ['.', '.'] ∨ body = [] ∨ ('/' ∉ body ∧ body ≠ [])

/-- The extension alternatives `\.[^.\/]*` and the empty extension. -/
def extGroupOK (ext : List Char) : Prop :=
  ext = [] ∨ ∃ u, ext = '.' :: u ∧ ∀ c ∈ u, c ≠ '.' ∧ c ≠ '/'

/-- A valid assignment of the four capture groups of `pathRegExp` to the
subject `s`: root, dir, base (name plus extension), extension, with the
remainder consumed by `[\/]*`. -/
def pathRegexMatch (s : List Char)
    (g : List Char × List Char × List Char × List Char) : Prop :=
  (g.1 = [] ∨ g.1 = ['/']) ∧
  ∃ body slashes,
    g.2.2.1 = body ++ g.2.2.2 ∧ bodyGroupOK body ∧ extGroupOK g.2.2.2 ∧
    (∀ c ∈ slashes, c = '/') ∧ s = g.1 ++ g.2.1 ++ g.2.2.1 ++ slashes

/-! ## Proof-side helpers -/

/-- A well-formed path segment: non-empty and slash-free (what `segsOf`
produces). -/
def GoodSeg (x : List Char) : Prop :=
  x ≠ [] ∧ '/' ∉ x

/-- The raw (pre-collapse) segments `resolve` accumulates, as a function of
the visiting-order argument list: the scan stops at the first absolute
argument; the segments of later-visited arguments end up in front. -/
def scanSegs : List (List Char) → List (List Char)
  | [] => []
  | p :: rest =>
    if p = [] then scanSegs rest
    else if isAbsoluteL p then segsOf p
    else scanSegs rest ++ segsOf p

/-- The collapsed segment list of `resolve args`. -/
def resSegs (args : List (List Char)) : List (List Char) :=
  (collapseSegs (scanSegs (args.reverse ++ [['/']]))).1

end Ponyfills

namespace Ponyfills

/-! ## Splitting and joining lemmas -/

theorem splitChar_nil : splitChar [] = [[]] := rfl

theorem splitCharAux_append_slash (x y : List Char) :
    splitCharAux (x ++ '/' :: y) =
      ((splitCharAux x).1, (splitCharAux x).2 ++ splitChar y) := by
  induction x with
  | nil => simp [splitCharAux, splitChar]
  | cons c x ih =>
    simp only [List.cons_append, splitCharAux, List.append_eq]
    rw [ih]
    by_cases h : c = '/' <;> simp [h]

theorem splitChar_append_slash (x y : List Char) :
    splitChar (x ++ '/' :: y) = splitChar x ++ splitChar y := by
  simp [splitChar, splitCharAux_append_slash]

theorem splitCharAux_of_noslash (l : List Char) (h : '/' ∉ l) :
    splitCharAux l = (l, []) := by
  induction l with
  | nil => rfl
  | cons c l ih =>
    simp only [List.mem_cons, not_or] at h
    simp [splitCharAux, ih h.2, Ne.symm h.1]

theorem splitCharAux_noslash (l : List Char) :
    '/' ∉ (splitCharAux l).1 ∧ ∀ g ∈ (splitCharAux l).2, '/' ∉ g := by
  induction l with
  | nil => simp [splitCharAux]
  | cons c l ih =>
    by_cases h : c = '/'
    · subst h
      simp only [splitCharAux, if_pos rfl]
      refine ⟨by simp, ?_⟩
      intro g hg
      rcases List.mem_cons.mp hg with h1 | h1
      · subst h1; exact ih.1
      · exact ih.2 g h1
    · simp only [splitCharAux, if_neg h]
      exact ⟨by simp [Ne.symm h, ih.1], ih.2⟩

theorem mem_splitChar_noslash (l : List Char) :
    ∀ g ∈ splitChar l, '/' ∉ g := by
  intro g hg
  rcases List.mem_cons.mp hg with h1 | h1
  · subst h1; exact (splitCharAux_noslash l).1
  · exact (splitCharAux_noslash l).2 g h1

theorem keepNonempty_append (a b : List (List Char)) :
    keepNonempty (a ++ b) = keepNonempty a ++ keepNonempty b := by
  induction a with
  | nil => rfl
  | cons g gs ih =>
    by_cases h : g = [] <;> simp [keepNonempty, h, ih]

theorem mem_keepNonempty (l : List (List Char)) :
    ∀ x ∈ keepNonempty l, x ∈ l ∧ x ≠ [] := by
  intro x hx
  induction l with
  | nil => simp [keepNonempty] at hx
  | cons g gs ih =>
    by_cases h : g = []
    · simp only [keepNonempty, if_pos h] at hx
      exact ⟨List.mem_cons_of_mem g (ih hx).1, (ih hx).2⟩
    · simp only [keepNonempty, if_neg h] at hx
      rcases List.mem_cons.mp hx with h1 | h1
      · subst h1; exact ⟨List.mem_cons_self x gs, h⟩
      · exact ⟨List.mem_cons_of_mem g (ih h1).1, (ih h1).2⟩

theorem segsOf_nil : segsOf [] = [] := rfl

theorem segsOf_append_slash (x y : List Char) :
    segsOf (x ++ '/' :: y) = segsOf x ++ segsOf y := by
  simp [segsOf, splitChar_append_slash, keepNonempty_append]

theorem segsOf_cons_slash (x : List Char) : segsOf ('/' :: x) = segsOf x := by
  simpa [segsOf_nil] using segsOf_append_slash [] x

theorem segsOf_concat_slash (x : List Char) : segsOf (x ++ ['/']) = segsOf x := by
  simpa [segsOf_nil] using segsOf_append_slash x []

theorem segsOf_allslash (s : List Char) (h : ∀ c ∈ s, c = '/') :
    segsOf s = [] := by
  induction s with
  | nil => rfl
  | cons c s ih =>
    have hc : c = '/' := h c (List.mem_cons_self c s)
    subst hc
    exact (segsOf_cons_slash s).trans (ih fun d hd => h d (List.mem_cons_of_mem _ hd))

theorem segsOf_append_allslash (x s : List Char) (h : ∀ c ∈ s, c = '/') :
    segsOf (x ++ s) = segsOf x := by
  induction s generalizing x with
  | nil => simp
  | cons c s ih =>
    have hc : c = '/' := h c (List.mem_cons_self c s)
    subst hc
    rw [segsOf_append_slash, segsOf_allslash s fun d hd => h d (List.mem_cons_of_mem _ hd)]
    simp

theorem mem_segsOf_good (l : List Char) : ∀ x ∈ segsOf l, GoodSeg x := by
  intro x hx
  have h1 := mem_keepNonempty (splitChar l) x hx
  exact ⟨h1.2, mem_splitChar_noslash l x h1.1⟩

theorem segsOf_good_single (x : List Char) (h : GoodSeg x) : segsOf x = [x] := by
  simp [segsOf, splitChar, splitCharAux_of_noslash x h.2, keepNonempty, h.1]

theorem joinSegs_cons_cons (x y : List Char) (ys : List (List Char)) :
    joinSegs (x :: y :: ys) = x ++ '/' :: joinSegs (y :: ys) := rfl

theorem segsOf_joinSegs (M : List (List Char)) (h : ∀ x ∈ M, GoodSeg x) :
    segsOf (joinSegs M) = M := by
  induction M with
  | nil => rfl
  | cons x xs ih =>
    cases xs with
    | nil => simpa [joinSegs] using segsOf_good_single x (h x (List.mem_cons_self x []))
    | cons y ys =>
      rw [joinSegs_cons_cons, segsOf_append_slash,
        segsOf_good_single x (h x (List.mem_cons_self x _)),
        ih fun z hz => h z (List.mem_cons_of_mem x hz)]
      rfl

theorem joinSegs_ne_nil (M : List (List Char)) (hM : M ≠ [])
    (h : ∀ x ∈ M, x ≠ []) : joinSegs M ≠ [] := by
  cases M with
  | nil => exact absurd rfl hM
  | cons x xs =>
    cases xs with
    | nil => exact h x (List.mem_cons_self x [])
    | cons y ys => simp [joinSegs_cons_cons, h x (List.mem_cons_self x _)]

theorem joinSegs_head? (x : List Char) (xs : List (List Char)) (hx : x ≠ []) :
    (joinSegs (x :: xs)).head? = x.head? := by
  cases xs with
  | nil => rfl
  | cons y ys =>
    rw [joinSegs_cons_cons]
    cases x with
    | nil => exact absurd rfl hx
    | cons c cs => simp

theorem getLast?_cons_ne_nil (c : Char) (l : List Char) (h : l ≠ []) :
    (c :: l).getLast? = l.getLast? := by
  rcases List.eq_nil_or_concat l with h1 | ⟨l', a, h1⟩
  · exact absurd h1 h
  · subst h1
    rw [List.concat_eq_append, ← List.cons_append, List.getLast?_concat,
      List.getLast?_concat]

theorem getLast?_append_right (x y : List Char) (h : y ≠ []) :
    (x ++ y).getLast? = y.getLast? := by
  rcases List.eq_nil_or_concat y with h1 | ⟨l', a, h1⟩
  · exact absurd h1 h
  · subst h1
    rw [List.concat_eq_append, ← List.append_assoc, List.getLast?_concat,
      List.getLast?_concat]

theorem mem_of_getLast?_eq (l : List Char) (c : Char) (h : l.getLast? = some c) :
    c ∈ l := by
  rcases List.eq_nil_or_concat l with h1 | ⟨l', a, h1⟩
  · subst h1; simp at h
  · subst h1
    rw [List.concat_eq_append, List.getLast?_concat] at h
    simp only [Option.some.injEq] at h
    subst h
    simp

theorem joinSegs_getLast?_ne_slash (M : List (List Char))
    (h : ∀ x ∈ M, GoodSeg x) (hM : M ≠ []) :
    ∀ c, (joinSegs M).getLast? = some c → c ≠ '/' := by
  induction M with
  | nil => exact absurd rfl hM
  | cons x xs ih =>
    intro c hc
    cases xs with
    | nil =>
      have hx := h x (List.mem_cons_self x [])
      have : c ∈ x := mem_of_getLast?_eq x c hc
      intro hcs; subst hcs; exact hx.2 this
    | cons y ys =>
      rw [joinSegs_cons_cons] at hc
      have hne : joinSegs (y :: ys) ≠ [] :=
        joinSegs_ne_nil _ (by simp) fun z hz => (h z (List.mem_cons_of_mem x hz)).1
      rw [getLast?_append_right _ _ (by simp), getLast?_cons_ne_nil _ _ hne] at hc
      exact ih (fun z hz => h z (List.mem_cons_of_mem x hz)) (by simp) c hc

theorem splitChar_joinSegs (M : List (List Char)) (hM : M ≠ [])
    (h : ∀ x ∈ M, GoodSeg x) : splitChar (joinSegs M) = M := by
  induction M with
  | nil => exact absurd rfl hM
  | cons x xs ih =>
    cases xs with
    | nil =>
      show splitChar (joinSegs [x]) = [x]
      simp [joinSegs, splitChar,
        splitCharAux_of_noslash x (h x (List.mem_cons_self x [])).2]
    | cons y ys =>
      rw [joinSegs_cons_cons, splitChar_append_slash,
        ih (by simp) fun z hz => h z (List.mem_cons_of_mem x hz)]
      simp [splitChar, splitCharAux_of_noslash x (h x (List.mem_cons_self x _)).2]

/-! ## Collapse (normalizeArray) lemmas -/

theorem collapseSegs_clean (T : List (List Char))
    (h : ∀ x ∈ T, x ≠ ['.'] ∧ x ≠ ['.', '.']) : collapseSegs T = (T, 0) := by
  induction T with
  | nil => rfl
  | cons p rest ih =>
    have hp := h p (List.mem_cons_self p rest)
    simp only [collapseSegs, ih fun x hx => h x (List.mem_cons_of_mem p hx),
      if_neg hp.1, if_neg hp.2]
    simp

theorem collapseSegs_replicate (k : Nat) :
    collapseSegs (List.replicate k ['.', '.']) = ([], k) := by
  induction k with
  | zero => rfl
  | succ n ih =>
    rw [List.replicate_succ]
    simp only [collapseSegs, ih]
    norm_num

theorem mem_collapseSegs (A : List (List Char)) :
    ∀ x ∈ (collapseSegs A).1, x ∈ A ∧ x ≠ ['.'] ∧ x ≠ ['.', '.'] := by
  induction A with
  | nil => simp [collapseSegs]
  | cons p rest ih =>
    intro x hx
    simp only [collapseSegs] at hx
    by_cases h1 : p = ['.']
    · rw [if_pos h1] at hx
      exact ⟨List.mem_cons_of_mem p (ih x hx).1, (ih x hx).2⟩
    · rw [if_neg h1] at hx
      by_cases h2 : p = ['.', '.']
      · rw [if_pos h2] at hx
        exact ⟨List.mem_cons_of_mem p (ih x hx).1, (ih x hx).2⟩
      · rw [if_neg h2] at hx
        by_cases h3 : (collapseSegs rest).2 ≠ 0
        · rw [if_pos h3] at hx
          exact ⟨List.mem_cons_of_mem p (ih x hx).1, (ih x hx).2⟩
        · rw [if_neg h3] at hx
          rcases List.mem_cons.mp hx with h4 | h4
          · subst h4; exact ⟨List.mem_cons_self x rest, h1, h2⟩
          · exact ⟨List.mem_cons_of_mem p (ih x h4).1, (ih x h4).2⟩

theorem collapseSegs_cons (p : List Char) (rest : List (List Char)) :
    collapseSegs (p :: rest) =
      (if p = ['.'] then collapseSegs rest
       else if p = ['.', '.'] then ((collapseSegs rest).1, (collapseSegs rest).2 + 1)
       else if (collapseSegs rest).2 ≠ 0 then
         ((collapseSegs rest).1, (collapseSegs rest).2 - 1)
       else (p :: (collapseSegs rest).1, (collapseSegs rest).2)) := rfl

theorem collapseSegs_append (A B : List (List Char)) :
    collapseSegs (A ++ B) =
      ((collapseSegs A).1.take ((collapseSegs A).1.length - (collapseSegs B).2) ++
        (collapseSegs B).1,
       (collapseSegs A).2 + ((collapseSegs B).2 - (collapseSegs A).1.length)) := by
  induction A with
  | nil => simp [collapseSegs]
  | cons p A ih =>
    rw [List.cons_append, collapseSegs_cons, collapseSegs_cons, ih]
    rcases hA : collapseSegs A with ⟨KA, UA⟩
    rcases hB : collapseSegs B with ⟨KB, UB⟩
    simp only
    by_cases h1 : p = ['.']
    · rw [if_pos h1, if_pos h1]
    rw [if_neg h1, if_neg h1]
    by_cases h2 : p = ['.', '.']
    · rw [if_pos h2, if_pos h2]
      simp only [Prod.mk.injEq, true_and]
      omega
    rw [if_neg h2, if_neg h2]
    by_cases h3 : UA ≠ 0
    · rw [if_pos h3, if_pos (show UA + (UB - KA.length) ≠ 0 by omega)]
      simp only [Prod.mk.injEq, true_and]
      omega
    push_neg at h3
    subst h3
    by_cases h5 : UB ≤ KA.length
    · rw [if_neg (show ¬(0 + (UB - KA.length) ≠ 0) by omega),
        if_neg (show ¬((0 : Nat) ≠ 0) by omega)]
      have h7 : (p :: KA).length - UB = (KA.length - UB) + 1 := by
        simp only [List.length_cons]; omega
      rw [h7, List.take_succ_cons]
      simp only [Prod.mk.injEq, List.cons_append, List.length_cons, true_and]
      omega
    · rw [if_pos (show 0 + (UB - KA.length) ≠ 0 by omega),
        if_neg (show ¬((0 : Nat) ≠ 0) by omega)]
      rw [show KA.length - UB = 0 by omega,
        show (p :: KA).length - UB = 0 by simp only [List.length_cons]; omega]
      simp only [List.take_zero, List.nil_append, Prod.mk.injEq, List.length_cons, true_and]
      omega

/-! ## Scan and resolve structure lemmas -/

theorem isAbsoluteL_iff (l : List Char) :
    isAbsoluteL l = true ↔ l.head? = some '/' := by
  simp [isAbsoluteL]

theorem isAbsoluteL_nil : isAbsoluteL [] = false := rfl

theorem scanArgs_cons (p : List Char) (rest : List (List Char)) (acc : List Char) :
    scanArgs (p :: rest) acc =
      if p = [] then scanArgs rest acc
      else if isAbsoluteL p = true then (p ++ '/' :: acc, true)
      else scanArgs rest (p ++ '/' :: acc) := rfl

theorem scanSegs_cons (p : List Char) (rest : List (List Char)) :
    scanSegs (p :: rest) =
      if p = [] then scanSegs rest
      else if isAbsoluteL p = true then segsOf p
      else scanSegs rest ++ segsOf p := rfl

theorem scanArgs_root_abs (l : List (List Char)) (acc : List Char) :
    (scanArgs (l ++ [['/']]) acc).2 = true := by
  induction l generalizing acc with
  | nil => rfl
  | cons p rest ih =>
    rw [List.cons_append, scanArgs_cons]
    by_cases h1 : p = []
    · rw [if_pos h1]; exact ih acc
    rw [if_neg h1]
    by_cases h2 : isAbsoluteL p = true
    · rw [if_pos h2]
    · rw [if_neg h2]; exact ih _

theorem segsOf_scanArgs (l : List (List Char)) (acc : List Char) :
    segsOf ((scanArgs l acc).1) = scanSegs l ++ segsOf acc := by
  induction l generalizing acc with
  | nil => rfl
  | cons p rest ih =>
    rw [scanArgs_cons, scanSegs_cons]
    by_cases h1 : p = []
    · rw [if_pos h1, if_pos h1]; exact ih acc
    rw [if_neg h1, if_neg h1]
    by_cases h2 : isAbsoluteL p = true
    · rw [if_pos h2, if_pos h2]
      exact segsOf_append_slash p acc
    · rw [if_neg h2, if_neg h2, ih, segsOf_append_slash, List.append_assoc]

theorem resolveL_eq (args : List (List Char)) :
    resolveL args = '/' :: joinSegs (resSegs args) := by
  simp only [resolveL, normalizeArrayL, resSegs]
  rw [scanArgs_root_abs args.reverse [], segsOf_scanArgs]
  simp [segsOf_nil]

theorem mem_scanSegs_good (l : List (List Char)) :
    ∀ x ∈ scanSegs l, GoodSeg x := by
  induction l with
  | nil => simp [scanSegs]
  | cons p rest ih =>
    intro x hx
    rw [scanSegs_cons] at hx
    by_cases h1 : p = []
    · rw [if_pos h1] at hx; exact ih x hx
    rw [if_neg h1] at hx
    by_cases h2 : isAbsoluteL p = true
    · rw [if_pos h2] at hx; exact mem_segsOf_good p x hx
    · rw [if_neg h2] at hx
      rcases List.mem_append.mp hx with h3 | h3
      · exact ih x h3
      · exact mem_segsOf_good p x h3

theorem mem_resSegs (args : List (List Char)) :
    ∀ x ∈ resSegs args, GoodSeg x ∧ x ≠ ['.'] ∧ x ≠ ['.', '.'] := by
  intro x hx
  have h1 := mem_collapseSegs _ x hx
  exact ⟨mem_scanSegs_good _ x h1.1, h1.2⟩

/-! ## Trim and common-prefix lemmas -/

theorem lastNonempty_of_all (l : List (List Char)) (hne : l ≠ [])
    (h : ∀ x ∈ l, x ≠ []) : lastNonempty l = some (l.length - 1) := by
  induction l with
  | nil => exact absurd rfl hne
  | cons g gs ih =>
    cases gs with
    | nil =>
      simp [lastNonempty, h g (List.mem_cons_self g [])]
    | cons y ys =>
      rw [show lastNonempty (g :: y :: ys) =
          (match lastNonempty (y :: ys) with
           | some k => some (k + 1)
           | none => if g = [] then none else some 0) from rfl,
        ih (by simp) fun x hx => h x (List.mem_cons_of_mem g hx)]
      simp

theorem trimL_of_good (l : List (List Char)) (h : ∀ x ∈ l, x ≠ []) :
    trimL l = l := by
  cases l with
  | nil => rfl
  | cons g gs =>
    rw [trimL, lastNonempty_of_all _ (by simp) h]
    have h0 : firstNonempty (g :: gs) = 0 := by
      simp [firstNonempty, h g (List.mem_cons_self g gs)]
    simp only [h0]
    rw [show (g :: gs).length - 1 + 1 - 2 * 0 = (g :: gs).length by
      simp only [List.length_cons]; omega]
    simp

theorem trim_split_resolve (args : List (List Char)) :
    trimL (splitChar ((resolveL args).drop 1)) = resSegs args := by
  rw [resolveL_eq]
  by_cases h : resSegs args = []
  · rw [h]; rfl
  · have hg : ∀ x ∈ resSegs args, GoodSeg x := fun x hx => (mem_resSegs args x hx).1
    rw [show ('/' :: joinSegs (resSegs args)).drop 1 = joinSegs (resSegs args) from rfl,
      splitChar_joinSegs _ h hg]
    exact trimL_of_good _ fun x hx => (hg x hx).1

theorem commonPrefixLen_le_left (a b : List (List Char)) :
    commonPrefixLen a b ≤ a.length := by
  induction a generalizing b with
  | nil => simp [commonPrefixLen]
  | cons x xs ih =>
    cases b with
    | nil => simp [commonPrefixLen]
    | cons y ys =>
      by_cases h : x = y
      · simp only [commonPrefixLen, if_pos h, List.length_cons]
        exact Nat.succ_le_succ (ih ys)
      · simp [commonPrefixLen, if_neg h]

theorem take_commonPrefixLen_eq (a b : List (List Char)) :
    a.take (commonPrefixLen a b) = b.take (commonPrefixLen a b) := by
  induction a generalizing b with
  | nil => simp [commonPrefixLen]
  | cons x xs ih =>
    cases b with
    | nil => simp [commonPrefixLen]
    | cons y ys =>
      by_cases h : x = y
      · subst h
        simp [commonPrefixLen, List.take_succ_cons, ih ys]
      · simp [commonPrefixLen, if_neg h]

theorem commonPrefixLen_self (a : List (List Char)) :
    commonPrefixLen a a = a.length := by
  induction a with
  | nil => rfl
  | cons x xs ih => simp [commonPrefixLen, ih]

/-! ## The relative round trip (claim C1 machinery) -/

theorem relM_good (f t : List Char) :
    ∀ x ∈ List.replicate
        ((resSegs [f]).length - commonPrefixLen (resSegs [f]) (resSegs [t]))
        ['.', '.'] ++
      (resSegs [t]).drop (commonPrefixLen (resSegs [f]) (resSegs [t])),
      GoodSeg x := by
  intro x hx
  rcases List.mem_append.mp hx with h | h
  · rw [List.eq_of_mem_replicate h]
    exact ⟨by decide, by decide⟩
  · exact (mem_resSegs [t] x (List.drop_subset _ _ h)).1

theorem relativeL_eq (f t : List Char) :
    relativeL f t = joinSegs
      (List.replicate
        ((resSegs [f]).length - commonPrefixLen (resSegs [f]) (resSegs [t]))
        ['.', '.'] ++
      (resSegs [t]).drop (commonPrefixLen (resSegs [f]) (resSegs [t]))) := by
  simp only [relativeL, trim_split_resolve]

theorem segsOf_relativeL (f t : List Char) :
    segsOf (relativeL f t) =
      List.replicate
        ((resSegs [f]).length - commonPrefixLen (resSegs [f]) (resSegs [t]))
        ['.', '.'] ++
      (resSegs [t]).drop (commonPrefixLen (resSegs [f]) (resSegs [t])) := by
  rw [relativeL_eq]
  exact segsOf_joinSegs _ (relM_good f t)

theorem relativeL_not_abs (f t : List Char) :
    isAbsoluteL (relativeL f t) = false := by
  rw [relativeL_eq]
  cases hM : List.replicate
       ((resSegs [f]).length - commonPrefixLen (resSegs [f]) (resSegs [t]))
       ['.', '.'] ++
      (resSegs [t]).drop (commonPrefixLen (resSegs [f]) (resSegs [t])) with
  | nil => rfl
  | cons m ms =>
    have hgood : GoodSeg m := relM_good f t m (by rw [hM]; exact List.mem_cons_self m ms)
    have hh := joinSegs_head? m ms hgood.1
    simp only [isAbsoluteL, hh, beq_eq_false_iff_ne, ne_eq]
    cases m with
    | nil => exact absurd rfl hgood.1
    | cons c cs =>
      simp only [List.head?_cons, Option.some.injEq]
      intro hc
      subst hc
      exact hgood.2 (List.mem_cons_self _ _)

theorem resSegs_single (f : List Char) :
    resSegs [f] = (collapseSegs (scanSegs [f, ['/']])).1 := rfl

theorem resSegs_pair (f r : List Char) (h : isAbsoluteL r = false) :
    resSegs [f, r] = (collapseSegs (scanSegs [f, ['/']] ++ segsOf r)).1 := by
  unfold resSegs
  rw [show ([f, r].reverse ++ [['/']]) = r :: [f, ['/']] from by simp]
  rw [scanSegs_cons]
  by_cases h1 : r = []
  · rw [if_pos h1, h1, segsOf_nil, List.append_nil]
  · rw [if_neg h1, h, if_neg (by simp)]

theorem resSegs_pair_rel (f t : List Char) :
    resSegs [f, relativeL f t] = resSegs [t] := by
  rw [resSegs_pair f _ (relativeL_not_abs f t), segsOf_relativeL]
  have hT : collapseSegs
      ((resSegs [t]).drop (commonPrefixLen (resSegs [f]) (resSegs [t]))) =
      ((resSegs [t]).drop (commonPrefixLen (resSegs [f]) (resSegs [t])), 0) :=
    collapseSegs_clean _ fun x hx => (mem_resSegs [t] x (List.drop_subset _ _ hx)).2
  have hM2 : collapseSegs
      (List.replicate
        ((resSegs [f]).length - commonPrefixLen (resSegs [f]) (resSegs [t]))
        ['.', '.'] ++
      (resSegs [t]).drop (commonPrefixLen (resSegs [f]) (resSegs [t]))) =
      ((resSegs [t]).drop (commonPrefixLen (resSegs [f]) (resSegs [t])),
       (resSegs [f]).length - commonPrefixLen (resSegs [f]) (resSegs [t])) := by
    rw [collapseSegs_append, collapseSegs_replicate, hT]
    simp
  rw [collapseSegs_append, hM2]
  simp only [← resSegs_single f]
  have hs : commonPrefixLen (resSegs [f]) (resSegs [t]) ≤ (resSegs [f]).length :=
    commonPrefixLen_le_left _ _
  rw [show (resSegs [f]).length -
      ((resSegs [f]).length - commonPrefixLen (resSegs [f]) (resSegs [t])) =
      commonPrefixLen (resSegs [f]) (resSegs [t]) by omega]
  rw [take_commonPrefixLen_eq]
  exact List.take_append_drop _ _

theorem resolve_relative (f t : List Char) :
    resolveL [f, relativeL f t] = resolveL [t] := by
  rw [resolveL_eq, resolveL_eq, resSegs_pair_rel]

theorem resSegs_of_resolveL_eq (f t : List Char) (h : resolveL [f] = resolveL [t]) :
    resSegs [f] = resSegs [t] := by
  rw [← trim_split_resolve [f], ← trim_split_resolve [t], h]

theorem relativeL_self (f t : List Char) (h : resolveL [f] = resolveL [t]) :
    relativeL f t = [] := by
  rw [relativeL_eq, resSegs_of_resolveL_eq f t h, commonPrefixLen_self]
  simp [joinSegs]

/-! ## Normalize lemmas -/

theorem mem_normalizeArrayL_good (parts : List (List Char)) (allow : Bool)
    (h : ∀ x ∈ parts, GoodSeg x) :
    ∀ x ∈ normalizeArrayL parts allow, GoodSeg x := by
  intro x hx
  unfold normalizeArrayL at hx
  by_cases ha : allow = true
  · rw [if_pos ha] at hx
    rcases List.mem_append.mp hx with h1 | h1
    · rw [List.eq_of_mem_replicate h1]
      exact ⟨by decide, by decide⟩
    · exact h x (mem_collapseSegs parts x h1).1
  · rw [if_neg ha] at hx
    exact h x (mem_collapseSegs parts x hx).1

theorem collapseSegs_normalizeArrayL (parts : List (List Char)) (allow : Bool) :
    collapseSegs (normalizeArrayL parts allow) =
      ((collapseSegs parts).1, if allow then (collapseSegs parts).2 else 0) := by
  have hclean : collapseSegs (collapseSegs parts).1 = ((collapseSegs parts).1, 0) :=
    collapseSegs_clean _ fun x hx => (mem_collapseSegs parts x hx).2
  unfold normalizeArrayL
  by_cases ha : allow = true
  · rw [if_pos ha, if_pos ha, collapseSegs_append, collapseSegs_replicate, hclean]
    simp
  · rw [if_neg ha, if_neg ha, hclean]

theorem normalizeArrayL_true (parts : List (List Char)) :
    normalizeArrayL parts true =
      List.replicate (collapseSegs parts).2 ['.', '.'] ++ (collapseSegs parts).1 := by
  unfold normalizeArrayL
  rw [if_pos rfl]

theorem normalizeArrayL_false (parts : List (List Char)) :
    normalizeArrayL parts false = (collapseSegs parts).1 := by
  unfold normalizeArrayL
  rw [if_neg (by simp)]

theorem normalizeArrayL_idem (parts : List (List Char)) (allow : Bool) :
    normalizeArrayL (normalizeArrayL parts allow) allow =
      normalizeArrayL parts allow := by
  cases allow with
  | true =>
    rw [normalizeArrayL_true (normalizeArrayL parts true), collapseSegs_normalizeArrayL,
      normalizeArrayL_true parts]
    simp
  | false =>
    rw [normalizeArrayL_false (normalizeArrayL parts false), collapseSegs_normalizeArrayL,
      normalizeArrayL_false parts]

theorem head?_append_left (x y : List Char) (h : x ≠ []) :
    (x ++ y).head? = x.head? := by
  cases x with
  | nil => exact absurd rfl h
  | cons c cs => rfl

theorem normalizeL_head_rel (p : List Char) (habs : isAbsoluteL p = false) :
    ∃ c cs, normalizeL p = c :: cs ∧ c ≠ '/' := by
  unfold normalizeL
  simp only [habs, Bool.not_false, Bool.false_eq_true, if_false, List.nil_append,
    eq_self_iff_true, and_true, ne_eq]
  by_cases hb : joinSegs (normalizeArrayL (segsOf p) true) = []
  · rw [if_pos hb]
    by_cases htr : p.getLast? = some '/'
    · rw [if_pos ⟨by simp, htr⟩]
      exact ⟨'.', ['/'], rfl, by decide⟩
    · rw [if_neg (by simp [htr])]
      exact ⟨'.', [], rfl, by decide⟩
  · rw [if_neg hb]
    have hMne : normalizeArrayL (segsOf p) true ≠ [] := by
      intro hM; rw [hM] at hb; exact hb rfl
    cases hM : normalizeArrayL (segsOf p) true with
    | nil => exact absurd hM hMne
    | cons m ms =>
      have hgood : GoodSeg m := by
        refine mem_normalizeArrayL_good (segsOf p) true (mem_segsOf_good p) m ?_
        rw [hM]; exact List.mem_cons_self m ms
      rw [hM] at hb
      cases m with
      | nil => exact absurd rfl hgood.1
      | cons c cs =>
        have hc : c ≠ '/' := fun h => hgood.2 (h ▸ List.mem_cons_self c cs)
        have hhead : (joinSegs ((c :: cs) :: ms)).head? = some c :=
          joinSegs_head? (c :: cs) ms (by simp)
        by_cases htr : p.getLast? = some '/'
        · rw [if_pos ⟨by simpa using hb, htr⟩]
          rcases hJ : joinSegs ((c :: cs) :: ms) with _ | ⟨d, ds⟩
          · exact absurd hJ hb
          · rw [hJ] at hhead
            simp only [List.head?_cons, Option.some.injEq] at hhead
            exact ⟨d, ds ++ ['/'], rfl, by rw [hhead]; exact hc⟩
        · rw [if_neg (by simp [htr])]
          rcases hJ : joinSegs ((c :: cs) :: ms) with _ | ⟨d, ds⟩
          · exact absurd hJ hb
          · rw [hJ] at hhead
            simp only [List.head?_cons, Option.some.injEq] at hhead
            exact ⟨d, ds, rfl, by rw [hhead]; exact hc⟩

theorem isAbsoluteL_normalizeL (p : List Char) :
    isAbsoluteL (normalizeL p) = isAbsoluteL p := by
  cases habs : isAbsoluteL p with
  | true =>
    unfold normalizeL
    rw [habs]
    simp only [if_true, List.singleton_append]
    simp [isAbsoluteL]
  | false =>
    obtain ⟨c, cs, hq, hc⟩ := normalizeL_head_rel p habs
    rw [hq]
    simp [isAbsoluteL, hc]

theorem joinSegs_eq_nil_good (M : List (List Char)) (hg : ∀ x ∈ M, GoodSeg x)
    (h : joinSegs M = []) : M = [] := by
  cases M with
  | nil => rfl
  | cons x xs =>
    exact absurd h (joinSegs_ne_nil _ (by simp) fun z hz => (hg z hz).1)

theorem normalizeL_struct (p : List Char)
    (hB : joinSegs (normalizeArrayL (segsOf p) (!isAbsoluteL p)) ≠ []) :
    normalizeL p = (if isAbsoluteL p then ['/'] else []) ++
      (joinSegs (normalizeArrayL (segsOf p) (!isAbsoluteL p)) ++
       (if p.getLast? = some '/' then ['/'] else [])) := by
  cases habs : isAbsoluteL p with
  | true =>
    rw [habs] at hB
    simp only [Bool.not_true] at hB
    by_cases htr : p.getLast? = some '/' <;> simp [normalizeL, habs, htr, hB]
  | false =>
    rw [habs] at hB
    simp only [Bool.not_false] at hB
    by_cases htr : p.getLast? = some '/' <;> simp [normalizeL, habs, htr, hB]

theorem mem_normSegs_good (p : List Char) (allow : Bool) :
    ∀ x ∈ normalizeArrayL (segsOf p) allow, GoodSeg x :=
  mem_normalizeArrayL_good (segsOf p) allow (mem_segsOf_good p)

theorem normalizeL_segs (p : List Char)
    (hB : joinSegs (normalizeArrayL (segsOf p) (!isAbsoluteL p)) ≠ []) :
    segsOf (normalizeL p) = normalizeArrayL (segsOf p) (!isAbsoluteL p) := by
  rw [normalizeL_struct p hB]
  have hcore : segsOf (joinSegs (normalizeArrayL (segsOf p) (!isAbsoluteL p)) ++
      (if p.getLast? = some '/' then ['/'] else [])) =
      normalizeArrayL (segsOf p) (!isAbsoluteL p) := by
    by_cases htr : p.getLast? = some '/'
    · rw [if_pos htr, segsOf_concat_slash]
      exact segsOf_joinSegs _ (mem_normSegs_good p _)
    · rw [if_neg htr, List.append_nil]
      exact segsOf_joinSegs _ (mem_normSegs_good p _)
  by_cases habs : isAbsoluteL p = true
  · rw [if_pos habs, List.singleton_append, segsOf_cons_slash, hcore]
  · rw [if_neg habs, List.nil_append, hcore]

theorem normalizeL_trailing (p : List Char)
    (hB : joinSegs (normalizeArrayL (segsOf p) (!isAbsoluteL p)) ≠ []) :
    ((normalizeL p).getLast? = some '/') ↔ (p.getLast? = some '/') := by
  rw [normalizeL_struct p hB]
  have hMne : normalizeArrayL (segsOf p) (!isAbsoluteL p) ≠ [] := by
    intro h; rw [h] at hB; exact hB rfl
  by_cases htr : p.getLast? = some '/'
  · rw [if_pos htr]
    constructor
    · intro _; exact htr
    · intro _
      rw [getLast?_append_right _ _ (by simp [hB]),
        getLast?_append_right _ _ (by simp)]
      rfl
  · rw [if_neg htr, List.append_nil]
    constructor
    · intro h
      rw [getLast?_append_right _ _ hB] at h
      exact absurd rfl (joinSegs_getLast?_ne_slash _ (mem_normSegs_good p _) hMne '/' h)
    · intro h; exact absurd h htr

theorem normalizeL_root (p : List Char) (habs : isAbsoluteL p = true)
    (hB : joinSegs (normalizeArrayL (segsOf p) (!isAbsoluteL p)) = []) :
    normalizeL p = ['/'] := by
  rw [habs] at hB
  simp only [Bool.not_true] at hB
  simp [normalizeL, habs, hB]

theorem normalizeL_dot (p : List Char) (habs : isAbsoluteL p = false)
    (hB : joinSegs (normalizeArrayL (segsOf p) (!isAbsoluteL p)) = []) :
    normalizeL p = ['.'] ++ (if p.getLast? = some '/' then ['/'] else []) := by
  rw [habs] at hB
  simp only [Bool.not_false] at hB
  by_cases htr : p.getLast? = some '/' <;> simp [normalizeL, habs, hB, htr]

theorem normalizeL_idem (p : List Char) :
    normalizeL (normalizeL p) = normalizeL p := by
  by_cases hB : joinSegs (normalizeArrayL (segsOf p) (!isAbsoluteL p)) = []
  · cases habs : isAbsoluteL p with
    | true =>
      rw [normalizeL_root p habs hB]
      decide
    | false =>
      rw [normalizeL_dot p habs hB]
      by_cases htr : p.getLast? = some '/'
      · rw [if_pos htr]; decide
      · rw [if_neg htr]; decide
  · have habs' : isAbsoluteL (normalizeL p) = isAbsoluteL p := isAbsoluteL_normalizeL p
    have hsegs : segsOf (normalizeL p) = normalizeArrayL (segsOf p) (!isAbsoluteL p) :=
      normalizeL_segs p hB
    have hidem := normalizeArrayL_idem (segsOf p) (!isAbsoluteL p)
    have hB' : joinSegs (normalizeArrayL (segsOf (normalizeL p))
        (!isAbsoluteL (normalizeL p))) ≠ [] := by
      rw [habs', hsegs, hidem]; exact hB
    rw [normalizeL_struct (normalizeL p) hB', habs', hsegs, hidem]
    simp only [normalizeL_trailing p hB]
    rw [← normalizeL_struct p hB]

/-! ## Parse decomposition lemmas -/

theorem rev_split (p : Char → Bool) (L : List Char) :
    (L.dropWhile p).reverse ++ (L.takeWhile p).reverse = L.reverse := by
  rw [← List.reverse_append, List.takeWhile_append_dropWhile]

theorem dropWhile_head_not (p : Char → Bool) (l : List Char) (c : Char)
    (w : List Char) (h : l.dropWhile p = c :: w) : p c = false := by
  induction l with
  | nil => simp at h
  | cons a l ih =>
    rw [List.dropWhile_cons] at h
    by_cases hp : p a = true
    · rw [if_pos hp] at h; exact ih h
    · rw [if_neg hp] at h
      have ha : a = c := ((List.cons.injEq a l c w).mp h).1
      subst ha
      revert hp
      cases p a <;> simp

theorem stripSlashes_split (l : List Char) :
    stripSlashes l ++ (l.reverse.takeWhile (fun c => c == '/')).reverse = l := by
  rw [stripSlashes, rev_split, List.reverse_reverse]

theorem dir_base_split (t : List Char) : dirOf t ++ baseOf t = t := by
  rw [dirOf, baseOf, rev_split, List.reverse_reverse]

theorem baseOf_noslash (t : List Char) : '/' ∉ baseOf t := by
  intro h
  have h1 := List.mem_takeWhile_imp (List.mem_reverse.mp h)
  simp at h1

theorem dirOf_split (t : List Char) (h : dirOf t ≠ []) :
    dirOf t = (dirOf t).dropLast ++ ['/'] := by
  rcases hw : t.reverse.dropWhile (fun c => c != '/') with _ | ⟨c, w⟩
  · exfalso; apply h; rw [dirOf, hw]; rfl
  · have hc : c = '/' := by simpa using dropWhile_head_not _ _ _ _ hw
    subst hc
    rw [dirOf, hw, List.reverse_cons, List.dropLast_concat]

theorem rootOf_cases (s : List Char) :
    (rootOf s = [] ∧ s.drop (rootOf s).length = s) ∨
    (rootOf s = ['/'] ∧ s = '/' :: s.drop (rootOf s).length) := by
  by_cases hh : s.head? = some '/'
  · right
    refine ⟨by rw [rootOf, if_pos hh], ?_⟩
    cases s with
    | nil => simp at hh
    | cons c s' =>
      simp only [List.head?_cons, Option.some.injEq] at hh
      subst hh
      rw [show rootOf ('/' :: s') = ['/'] from by simp [rootOf]]
      rfl
  · left
    refine ⟨by rw [rootOf, if_neg hh], ?_⟩
    rw [show rootOf s = [] from by rw [rootOf, if_neg hh]]
    simp

theorem parseL_root (s : List Char) : (parseL s).1 = rootOf s := rfl

theorem parseL_dir (s : List Char) :
    (parseL s).2.1 = dirOf (stripSlashes (s.drop (rootOf s).length)) := rfl

theorem parseL_base (s : List Char) :
    (parseL s).2.2.1 = baseOf (stripSlashes (s.drop (rootOf s).length)) := rfl

theorem parseL_ext (s : List Char) :
    (parseL s).2.2.2 = extOf (baseOf (stripSlashes (s.drop (rootOf s).length))) := rfl

theorem parse_decomp (s : List Char) :
    ∃ slashes, (∀ c ∈ slashes, c = '/') ∧
      s = (parseL s).1 ++ ((parseL s).2.1 ++ ((parseL s).2.2.1 ++ slashes)) := by
  refine ⟨((s.drop (rootOf s).length).reverse.takeWhile (fun c => c == '/')).reverse,
    ?_, ?_⟩
  · intro c hc
    simpa using List.mem_takeWhile_imp (List.mem_reverse.mp hc)
  · rw [parseL_root, parseL_dir, parseL_base, ← List.append_assoc (dirOf _),
      dir_base_split, stripSlashes_split]
    rcases rootOf_cases s with ⟨h1, h2⟩ | ⟨h1, h2⟩
    · rw [h1] at h2 ⊢
      rw [List.nil_append, h2]
    · rw [h1] at h2
      conv_lhs => rw [h2]
      rw [h1]
      rfl

theorem parse_b_noslash (s : List Char) : '/' ∉ (parseL s).2.2.1 := by
  rw [parseL_base]
  exact baseOf_noslash _

theorem parse_dir_split (s : List Char) (h : (parseL s).2.1 ≠ []) :
    (parseL s).2.1 = (parseL s).2.1.dropLast ++ ['/'] := by
  rw [parseL_dir] at h ⊢
  exact dirOf_split _ h

/-! ## The dirname/basename round trip (claim C8 machinery) -/

theorem scanSegs_pair_root (x : List Char) : scanSegs [x, ['/']] = segsOf x := by
  rw [scanSegs_cons]
  by_cases h1 : x = []
  · rw [if_pos h1, h1, segsOf_nil]
    rfl
  rw [if_neg h1]
  by_cases h2 : isAbsoluteL x = true
  · rw [if_pos h2]
  · rw [if_neg h2, show scanSegs [['/']] = [] from rfl, List.nil_append]

theorem isAbsoluteL_of_noslash (l : List Char) (h : '/' ∉ l) :
    isAbsoluteL l = false := by
  cases l with
  | nil => rfl
  | cons c cs =>
    have hc : c ≠ '/' := fun he => h (he ▸ List.mem_cons_self c cs)
    simp [isAbsoluteL, hc]

theorem basenameL_nil (p : List Char) : basenameL p [] = (parseL p).2.2.1 := by
  simp [basenameL]

theorem segsOf_parse (p : List Char) :
    segsOf p = segsOf ((parseL p).2.1 ++ (parseL p).2.2.1) := by
  obtain ⟨sl, hsl, hdecomp⟩ := parse_decomp p
  conv_lhs => rw [hdecomp]
  rw [parseL_root]
  rcases rootOf_cases p with ⟨h1, _⟩ | ⟨h1, _⟩
  · rw [h1, List.nil_append, ← List.append_assoc, segsOf_append_allslash _ sl hsl]
  · rw [h1, List.singleton_append, segsOf_cons_slash, ← List.append_assoc,
      segsOf_append_allslash _ sl hsl]

theorem resolve_dirname_basename (p : List Char) :
    resolveL [dirnameL p, basenameL p []] = resolveL [p] := by
  rw [resolveL_eq, resolveL_eq]
  suffices h : resSegs [dirnameL p, basenameL p []] = resSegs [p] by rw [h]
  have hnabs : isAbsoluteL (basenameL p []) = false := by
    rw [basenameL_nil]
    exact isAbsoluteL_of_noslash _ (parse_b_noslash p)
  rw [resSegs_pair _ _ hnabs, scanSegs_pair_root, resSegs_single, scanSegs_pair_root,
    basenameL_nil]
  by_cases hrd : (parseL p).1 = [] ∧ (parseL p).2.1 = []
  · have hdn : dirnameL p = ['.'] := by simp [dirnameL, hrd]
    rw [hdn, segsOf_parse p, hrd.2, List.nil_append,
      show segsOf ['.'] = [['.']] from rfl,
      show ([['.']] : List (List Char)) ++ segsOf (parseL p).2.2.1 =
        ['.'] :: segsOf (parseL p).2.2.1 from rfl,
      collapseSegs_cons, if_pos rfl]
  · have hdn : dirnameL p = (parseL p).1 ++ (parseL p).2.1.dropLast := by
      simp [dirnameL, hrd]
    have hsegsdn : segsOf (dirnameL p) = segsOf (parseL p).2.1.dropLast := by
      rw [hdn, parseL_root]
      rcases rootOf_cases p with ⟨h1, _⟩ | ⟨h1, _⟩
      · rw [h1, List.nil_append]
      · rw [h1, List.singleton_append, segsOf_cons_slash]
    rw [hsegsdn, segsOf_parse p]
    by_cases hdir : (parseL p).2.1 = []
    · rw [hdir]
      simp [segsOf_nil]
    · have hsplit := parse_dir_split p hdir
      conv_rhs => rw [hsplit]
      rw [List.append_assoc, List.singleton_append, segsOf_append_slash]

/-! ## The regex always matches (claim C9 machinery) -/

theorem extOf_split (b : List Char) (h : '/' ∉ b) :
    ∃ body, b = body ++ extOf b ∧ bodyGroupOK body ∧ extGroupOK (extOf b) := by
  by_cases h1 : b = ['.', '.']
  · refine ⟨b, ?_, ?_, ?_⟩
    · rw [extOf, if_pos h1, List.append_nil]
    · rw [h1]; right; left; rfl
    · rw [extOf, if_pos h1]; left; rfl
  · rw [extOf, if_neg h1]
    by_cases h2 : (b.reverse.takeWhile (fun c => c != '.')).length + 2 ≤ b.length
    · rw [if_pos h2]
      rcases hw : b.reverse.dropWhile (fun c => c != '.') with _ | ⟨c, w'⟩
      · exfalso
        have hlen : b.reverse.length =
            (b.reverse.takeWhile (fun c => c != '.')).length +
            (b.reverse.dropWhile (fun c => c != '.')).length := by
          conv_lhs => rw [← List.takeWhile_append_dropWhile (p := fun c => c != '.')
            (l := b.reverse)]
          rw [List.length_append]
        rw [hw, List.length_reverse] at hlen
        simp at hlen
        omega
      · have hc : c = '.' := by simpa using dropWhile_head_not _ _ _ _ hw
        subst hc
        have hsplit : b = w'.reverse ++
            ('.' :: (b.reverse.takeWhile (fun c => c != '.')).reverse) := by
          conv_lhs => rw [← List.reverse_reverse b,
            ← List.takeWhile_append_dropWhile (p := fun c => c != '.')
              (l := b.reverse), hw]
          rw [List.reverse_append, List.reverse_cons, List.append_assoc,
            List.singleton_append]
        refine ⟨w'.reverse, hsplit, ?_, ?_⟩
        · right; right; right
          constructor
          · intro hsl
            apply h
            rw [hsplit]
            exact List.mem_append_left _ hsl
          · intro hnil
            have hlen : b.reverse.length =
                (b.reverse.takeWhile (fun c => c != '.')).length +
                (b.reverse.dropWhile (fun c => c != '.')).length := by
              conv_lhs => rw [← List.takeWhile_append_dropWhile
                (p := fun c => c != '.') (l := b.reverse)]
              rw [List.length_append]
            rw [hw, List.length_reverse] at hlen
            have : w' = [] := by simpa using hnil
            rw [this] at hlen
            simp at hlen
            omega
        · right
          refine ⟨(b.reverse.takeWhile (fun c => c != '.')).reverse, rfl, ?_⟩
          intro d hd
          have hd1 := List.mem_reverse.mp hd
          constructor
          · simpa using List.mem_takeWhile_imp hd1
          · intro hds
            apply h
            subst hds
            rw [hsplit]
            exact List.mem_append_right _ (List.mem_cons_of_mem _ hd)
    · rw [if_neg h2]
      refine ⟨b, by rw [List.append_nil], ?_, Or.inl rfl⟩
      cases hb : b with
      | nil => right; right; left; rfl
      | cons c cs =>
        right; right; right
        exact ⟨hb ▸ h, by simp⟩

theorem parse_matches_regex (s : List Char) : pathRegexMatch s (parseL s) := by
  constructor
  · rw [parseL_root]
    rcases rootOf_cases s with ⟨h1, _⟩ | ⟨h1, _⟩
    · left; exact h1
    · right; exact h1
  · obtain ⟨sl, hsl, hdecomp⟩ := parse_decomp s
    obtain ⟨body, hb, hbody, hext⟩ :=
      extOf_split (parseL s).2.2.1 (parse_b_noslash s)
    have hext_eq : extOf (parseL s).2.2.1 = (parseL s).2.2.2 := by
      rw [parseL_base, parseL_ext]
    rw [hext_eq] at hb hext
    exact ⟨body, sl, hb, hbody, hext, hsl,
      by rw [List.append_assoc, List.append_assoc]; exact hdecomp⟩

/-! ## Join never throws on strings (claim C9 machinery) -/

theorem filterE_strings (args : List String) :
    filterE (args.map JSValue.str) = .ok (keepNonempty (args.map String.data)) := by
  induction args with
  | nil => rfl
  | cons s args ih =>
    show filterE (.str s :: args.map JSValue.str) = _
    simp only [filterE, ih]
    rfl

theorem joinE_strings (args : List String) :
    joinE (args.map JSValue.str) = .ok (join args) := by
  unfold joinE
  rw [filterE_strings]
  rfl

/-! ## Type-check behaviour of the variadic functions -/

theorem filterE_error (pre post : List JSValue) :
    filterE (pre ++ JSValue.nonString :: post) = .error () := by
  induction pre with
  | nil => rfl
  | cons v pre ih =>
    cases v with
    | nonString => rfl
    | str s =>
      show filterE (.str s :: (pre ++ JSValue.nonString :: post)) = .error ()
      simp only [filterE, ih]

theorem joinE_error (pre post : List JSValue) :
    joinE (pre ++ JSValue.nonString :: post) = .error () := by
  simp only [joinE, filterE_error]

theorem scanArgsE_error (l rest : List JSValue) (acc : List Char)
    (h : ∀ v ∈ l, ∃ s, v = JSValue.str s ∧ isAbsoluteL s.data = false) :
    scanArgsE (l ++ JSValue.nonString :: rest) acc = .error () := by
  induction l generalizing acc with
  | nil => rfl
  | cons v l ih =>
    obtain ⟨s, rfl, habs⟩ := h _ (List.mem_cons_self v l)
    show scanArgsE (.str s :: (l ++ JSValue.nonString :: rest)) acc = .error ()
    simp only [scanArgsE]
    by_cases h1 : s.data = []
    · rw [if_pos h1]
      exact ih acc fun w hw => h w (List.mem_cons_of_mem _ hw)
    · rw [if_neg h1, if_neg (by simp [habs])]
      exact ih _ fun w hw => h w (List.mem_cons_of_mem _ hw)

theorem resolveE_error (pre post : List JSValue)
    (h : ∀ v ∈ post, ∃ s, v = JSValue.str s ∧ isAbsoluteL s.data = false) :
    resolveE (pre ++ JSValue.nonString :: post) = .error () := by
  unfold resolveE
  rw [show (pre ++ JSValue.nonString :: post).reverse ++ [JSValue.str "/"] =
      post.reverse ++ (JSValue.nonString :: (pre.reverse ++ [JSValue.str "/"])) by
    simp]
  rw [scanArgsE_error post.reverse _ [] fun v hv => h v (List.mem_reverse.mp hv)]

/-! ## Claim theorems -/

/-- Claim C1: for every pair of strings `from` and `to`,
`resolve(from, relative(from, to))` equals `resolve(to)`; in particular,
when `from` and `to` resolve to the same absolute path, `relative(from, to)`
returns the empty string. -/
theorem claim_C1 (f t : String) :
    resolve [f, relative f t] = resolve [t] ∧
    (resolve [f] = resolve [t] → relative f t = "") := by
  constructor
  · exact congrArg String.mk (resolve_relative f.data t.data)
  · intro h
    have h1 : resolveL [f.data] = resolveL [t.data] := congrArg String.data h
    exact congrArg String.mk (relativeL_self f.data t.data h1)

/-- Witness for C1 at concrete inputs: the round trip at `/x`, `/y`, and the
empty relative path for the identically-resolving pair `/x`, `/x/`. -/
theorem claim_C1_witness :
    resolve ["/x", relative "/x" "/y"] = resolve ["/y"] ∧ relative "/x" "/x/" = "" :=
  ⟨(claim_C1 "/x" "/y").1, (claim_C1 "/x" "/x/").2 (by decide)⟩

/-- Claim C2: `resolve('/a/b', '../c')` returns `/a/c`, and `resolve()`
returns `/` (the synthetic root with nothing prepended). -/
theorem claim_C2 : resolve ["/a/b", "../c"] = "/a/c" ∧ resolve [] = "/" := by
  decide

/-- Counterexample to claim C3 as stated: `resolve` does **not** raise a
`TypeError` for a non-string argument in every position — the backward scan
stops at the absolute string `'/a'`, so the non-string first argument is
never examined and the call returns `'/a'`. -/
theorem claim_C3_counterexample :
    resolveE [JSValue.nonString, JSValue.str "/a"] = .ok "/a" := rfl

/-- Claim C3 (amended): `join` raises a `TypeError` for a non-string element
at any position; `resolve` raises a `TypeError` for a non-string element
only when the right-to-left scan reaches it, i.e. when every argument after
it is a non-absolute string (in particular whenever it is the last
argument); a non-string with an absolute string argument after it is
ignored without error. -/
theorem claim_C3 :
    (∀ pre post : List JSValue,
      joinE (pre ++ JSValue.nonString :: post) = .error ()) ∧
    (∀ pre post : List JSValue,
      (∀ v ∈ post, ∃ s, v = JSValue.str s ∧ isAbsolute s = false) →
      resolveE (pre ++ JSValue.nonString :: post) = .error ()) :=
  ⟨joinE_error, fun pre post h => resolveE_error pre post h⟩

/-- Witness for C3 (amended) at concrete inputs: a trailing non-string makes
both `join` and `resolve` throw. -/
theorem claim_C3_witness :
    joinE [JSValue.str "a", JSValue.nonString] = .error () ∧
    resolveE [JSValue.str "a", JSValue.nonString] = .error () :=
  ⟨claim_C3.1 [JSValue.str "a"] [], claim_C3.2 [JSValue.str "a"] [] (by simp)⟩

/-- Claim C7: the worked decomposition examples for `dirname`, `basename`
(with and without the `ext` argument, the omitted argument modelled by the
empty string) and `extname`, including the leading-dot-only name. -/
theorem claim_C7 :
    dirname "/a/b/c.txt" = "/a/b" ∧
    basename "/a/b/c.txt" "" = "c.txt" ∧
    basename "/a/b/c.txt" ".txt" = "c" ∧
    extname "/a/b/c.txt" = ".txt" ∧
    extname ".gitignore" = "" := by
  decide

/-- Claim C8: for every string `p` that does not end with `/` and is not
`.`, `..` or `/`, `resolve(dirname(p), basename(p))` equals `resolve(p)`
(the omitted `ext` argument of `basename` modelled by the empty string). -/
theorem claim_C8 (p : String) (_h1 : p.data.getLast? ≠ some '/')
    (_h2 : p ≠ ".") (_h3 : p ≠ "..") (_h4 : p ≠ "/") :
    resolve [dirname p, basename p ""] = resolve [p] :=
  congrArg String.mk (resolve_dirname_basename p.data)

/-- Witness for C8 at the concrete non-degenerate input `/a/b.txt`. -/
theorem claim_C8_witness :
    resolve [dirname "/a/b.txt", basename "/a/b.txt" ""] = resolve ["/a/b.txt"] :=
  claim_C8 "/a/b.txt" (by decide) (by decide) (by decide) (by decide)

/-- Claim C9: the path engine never throws on well-typed string input: the
`pathRegExp` pattern match of `parse` (which `dirname`, `basename` and
`extname` rely on through its non-null assertion) succeeds on every string
— `parseL`'s groups are a valid match — and `join` on string arguments
(any arity, in particular two) returns a defined string rather than
throwing; `normalize`, `relative`, `dirname`, `basename` and `extname` are
total functions of their string arguments by construction. -/
theorem claim_C9 :
    (∀ s : String, pathRegexMatch s.data (parseL s.data)) ∧
    (∀ args : List String, joinE (args.map JSValue.str) = .ok (join args)) ∧
    (∀ a b : String, joinE [JSValue.str a, JSValue.str b] = .ok (join [a, b])) :=
  ⟨fun s => parse_matches_regex s.data, joinE_strings,
   fun a b => joinE_strings [a, b]⟩

/-- Claim C4: `normalize` is idempotent: `normalize(normalize(p))` equals
`normalize(p)` for every string `p`. -/
theorem claim_C4 (p : String) : normalize (normalize p) = normalize p :=
  congrArg String.mk (normalizeL_idem p.data)

/-- Claim C6: `normalize` collapses `.`/`..` and redundant separators
(witnessed by the worked example `normalize('/a//b/../c/') = '/a/c/'`),
preserves the absolute marker, and keeps a trailing slash when the input
ends with `/` and the collapsed segment list (the normalized body) is
non-empty. -/
theorem claim_C6 :
    normalize "/a//b/../c/" = "/a/c/" ∧
    (∀ p : String, isAbsolute (normalize p) = isAbsolute p) ∧
    (∀ p : String, p.data.getLast? = some '/' →
      normalizeArrayL (segsOf p.data) (!isAbsoluteL p.data) ≠ [] →
      (normalize p).data.getLast? = some '/') := by
  refine ⟨by decide, fun p => isAbsoluteL_normalizeL p.data, ?_⟩
  intro p htr hM
  have hB : joinSegs (normalizeArrayL (segsOf p.data) (!isAbsoluteL p.data)) ≠ [] :=
    joinSegs_ne_nil _ hM fun x hx => (mem_normSegs_good p.data _ x hx).1
  show (normalizeL p.data).getLast? = some '/'
  exact (normalizeL_trailing p.data hB).mpr htr

/-- Witness for C6's conditional part at a concrete input: `/x/` ends with a
slash, its normalized body is non-empty, and the output keeps the slash. -/
theorem claim_C6_witness : (normalize "/x/").data.getLast? = some '/' :=
  claim_C6.2.2 "/x/" (by decide) (by decide)

/-- Claim C5: `isAbsolute(resolve(...args))` is always true,
`isAbsolute(normalize(p))` equals `isAbsolute(p)`, and `isAbsolute` holds
exactly of strings whose first character is `/` (so the empty string is not
absolute). -/
theorem claim_C5 :
    (∀ args : List String, isAbsolute (resolve args) = true) ∧
    (∀ p : String, isAbsolute (normalize p) = isAbsolute p) ∧
    isAbsolute "" = false := by
  refine ⟨?_, ?_, by decide⟩
  · intro args
    show isAbsoluteL (resolveL (args.map String.data)) = true
    rw [resolveL_eq]
    simp [isAbsoluteL]
  · intro p
    exact isAbsoluteL_normalizeL p.data

/-- Claim C10: the string returned by `resolve` never ends with `/` unless
the entire result is exactly `/`. -/
theorem claim_C10 (args : List String)
    (h : (resolve args).data.getLast? = some '/') : resolve args = "/" := by
  have h1 : (resolveL (args.map String.data)).getLast? = some '/' := h
  rw [resolveL_eq] at h1
  by_cases hK : resSegs (args.map String.data) = []
  · show String.mk (resolveL (args.map String.data)) = "/"
    rw [resolveL_eq, hK]
    rfl
  · exfalso
    have hgood : ∀ x ∈ resSegs (args.map String.data), GoodSeg x :=
      fun x hx => (mem_resSegs _ x hx).1
    have hne : joinSegs (resSegs (args.map String.data)) ≠ [] :=
      joinSegs_ne_nil _ hK fun x hx => (hgood x hx).1
    rw [getLast?_cons_ne_nil '/' _ hne] at h1
    exact joinSegs_getLast?_ne_slash _ hgood hK '/' h1 rfl

/-- Witness for C10: `resolve('/')` ends in a slash and is exactly `/`. -/
theorem claim_C10_witness :
    (resolve ["/"]).data.getLast? = some '/' ∧ resolve ["/"] = "/" :=
  ⟨by decide, claim_C10 ["/"] (by decide)⟩

end Ponyfills
